import Mathlib

/-!
Verification of the hanekawa BitTorrent tracker core: the bencode codec
(src/bencode.rs) and the announce/scrape response assembly (src/server/mod.rs).

Modelling conventions:
- Rust `&str` / `String` values are modelled as byte lists (`List Nat`,
  each element a byte 0..255).  Rust string ordering is byte-lexicographic,
  which `ltBytes` mirrors.
- `BTreeMap<String, Value>` is modelled as an association list that is
  strictly sorted by `ltBytes`; `btreeInsert` mirrors `BTreeMap::insert`
  (replacing an equal key) and `btree_of_list` mirrors
  `FromIterator for BTreeMap` (insert each pair in order, last write wins).
- nom parsers are modelled by `PResult`: `ok rest value` for `Ok`,
  `err` for a recoverable `nom::Err::Error` (backtrackable in `alt`),
  `fail` for `nom::Err::Failure` (aborts `alt`), and `panic` for a Rust
  panic (`unwrap` on an overflowing `str::parse`, or `str::split_at` at a
  non-character boundary).  `out` marks fuel exhaustion of the model's
  bounded recursion; the fuel passed by the top-level `parse` is large
  enough that `out` is never reached on the inputs of the theorems below.
- Recursive parsing (`parse_value` via `many0`) uses explicit fuel so that
  every definition is executable by kernel reduction.
-/

namespace Hanekawa

/-- Helper: the byte list of an ASCII string literal.  Throughout,
`List Nat` byte lists (entries 0..255) stand for Rust `&str` / `String`
data. -/
def istr (s : String) : List Nat := s.toList.map Char.toNat

/-- The bencode value model from src/bencode.rs (`enum Value`).
`String` holds the byte data of a Rust `String`; `Int` holds an `i32`
(the Rust type bounds it to the signed 32-bit range; the model carries a
mathematical `Int`, and range enters through the parser's overflow checks
and the well-formedness predicate); `Dict` holds the sorted association
list representing a `BTreeMap<String, Value>`. -/
inductive Value where
  | String : List Nat → Value
  | Int : Int → Value
  | List : List Value → Value
  | Dict : List (List Nat × Value) → Value

/-- Byte-lexicographic strict order, mirroring `Ord for Rust String`
(byte order, a proper prefix sorts first). -/
def ltBytes : List Nat → List Nat → Bool
  | [], [] => false
  | [], _ :: _ => true
  | _ :: _, [] => false
  | a :: as, b :: bs => if a < b then true else if b < a then false else ltBytes as bs

/-- Keys of an association list are strictly ascending (the `BTreeMap`
iteration-order invariant). -/
def sorted_keys : List (List Nat × Value) → Bool
  | [] => true
  | [_] => true
  | (k1, _) :: (k2, v2) :: rest =>
    ltBytes k1 k2 && sorted_keys ((k2, v2) :: rest)

/-- `BTreeMap::insert` on the sorted-association-list representation:
insert before the first larger key, replace an equal key. -/
def btreeInsert (k : List Nat) (v : Value) : List (List Nat × Value) → List (List Nat × Value)
  | [] => [(k, v)]
  | (k2, v2) :: rest =>
    if ltBytes k k2 then (k, v) :: (k2, v2) :: rest
    else if k = k2 then (k, v) :: rest
    else (k2, v2) :: btreeInsert k v rest

/-- `BTreeMap::from_iter` / `collect()`: insert the pairs in order,
so a later duplicate key overwrites an earlier one. -/
def btree_of_list (ps : List (List Nat × Value)) : List (List Nat × Value) :=
  ps.foldl (fun m p => btreeInsert p.1 p.2 m) []

/-- Result of a nom parser over the remaining input.  See the module
comment for the correspondence. -/
inductive PResult (α : Type) where
  | ok : List Nat → α → PResult α
  | err : PResult α
  | fail : PResult α
  | panic : PResult α
  | out : PResult α

/-- Sequencing of nom parsers (the `?` on an `IResult`): errors,
failures and panics propagate. -/
def pbind {α β : Type} (r : PResult α) (f : List Nat → α → PResult β) : PResult β :=
  match r with
  | .ok rest a => f rest a
  | .err => .err
  | .fail => .fail
  | .panic => .panic
  | .out => .out

/-- `nom::branch::alt`: try the next branch only on a recoverable
`Err::Error`; `Err::Failure` (and a panic) aborts the alternation. -/
def palt {α : Type} (r : PResult α) (f : Unit → PResult α) : PResult α :=
  match r with
  | .err => f ()
  | r => r

/-- `nom::bytes::complete::tag` for a single byte. -/
def tagB (t : Nat) : List Nat → PResult Unit
  | [] => .err
  | b :: rest => if b = t then .ok rest () else .err

/-- `is_numeric` from src/bencode.rs: ASCII decimal digit. -/
def is_numeric (b : Nat) : Bool := decide (48 ≤ b) && decide (b ≤ 57)

/-- Numeric value of an ASCII digit sequence, as computed by Rust
`str::parse` on a digit-only string. -/
def digitsToNat (ds : List Nat) : Nat := ds.foldl (fun acc d => 10 * acc + (d - 48)) 0

/-- `parse_numeric` from src/bencode.rs: `take_while1(is_numeric)` then
`parse::<u32>().unwrap()`.  The unwrap panics exactly when the digit
string's value exceeds `u32::MAX`. -/
def parse_numeric (input : List Nat) : PResult Nat :=
  let ds := input.takeWhile is_numeric
  if ds.isEmpty then .err
  else if digitsToNat ds < 4294967296 then .ok (input.dropWhile is_numeric) (digitsToNat ds)
  else .panic

/-- Rust `str::is_char_boundary` at the byte level: index 0, the full
length, or a byte that is not a UTF-8 continuation byte
(`(b as i8) >= -0x40`, i.e. `b < 0x80 || b >= 0xC0`). -/
def isCharBoundary (bs : List Nat) (i : Nat) : Bool :=
  if i = 0 then true
  else if i = bs.length then true
  else
    match bs.get? i with
    | some b => decide (b < 128) || decide (192 ≤ b)
    | none => false

/-- `parse_string` from src/bencode.rs: `<len>:<bytes>`.  On enough
input, `str::split_at(len)` panics unless `len` is a char boundary;
on too little input it returns `nom::Err::Failure(Eof)`. -/
def parse_string (input : List Nat) : PResult (List Nat) :=
  pbind (parse_numeric input) fun i1 len =>
  pbind (tagB 58 i1) fun i2 _ =>
  if len ≤ i2.length then
    if isCharBoundary i2 len then .ok (i2.drop len) (i2.take len)
    else .panic
  else .fail

/-- Digit of the nonzero leading position (`is_nonzero_numeric`). -/
def is_nonzero_numeric (b : Nat) : Bool := is_numeric b && decide (b ≠ 48)

/-- Value of the matched integer literal, as computed by Rust
`str::parse::<i32>` before its range check: optional sign (a leading
`-`, byte 45), then digits. -/
def bytesToInt (bs : List Nat) : Int :=
  if bs.headD 0 = 45 then -(digitsToNat bs.tail : Int) else (digitsToNat bs : Int)

/-- `parse_integer_numeric_part` from src/bencode.rs:
`alt((recognize(tag("0")), recognize(tuple((opt(tag("-")),
take_while_m_n(1,1,is_nonzero_numeric), take_while(is_numeric))))))`
followed by `parse::<i32>().unwrap()`, which panics outside the
signed 32-bit range. -/
def parse_integer_numeric_part (input : List Nat) : PResult Int :=
  let branch2 : PResult (List Nat) :=
    let negated := input.headD 0 = 45
    let i1 := if negated then input.tail else input
    match i1 with
    | b :: rest =>
      if is_nonzero_numeric b then
        .ok (rest.dropWhile is_numeric)
          ((if negated then [45] else []) ++ b :: rest.takeWhile is_numeric)
      else .err
    | [] => .err
  let matched : PResult (List Nat) :=
    palt
      (match input with
       | b :: rest => if b = 48 then .ok rest [48] else .err
       | [] => .err)
      (fun _ => branch2)
  pbind matched fun rest m =>
    if -2147483648 ≤ bytesToInt m ∧ bytesToInt m ≤ 2147483647 then .ok rest (bytesToInt m)
    else .panic

/-- `parse_integer` from src/bencode.rs: `i<num>e`. -/
def parse_integer (input : List Nat) : PResult Value :=
  pbind (tagB 105 input) fun i1 _ =>
  pbind (parse_integer_numeric_part i1) fun i2 n =>
  pbind (tagB 101 i2) fun i3 _ =>
  .ok i3 (Value.Int n)

/-- `nom::multi::many0`: repeat `p` until a recoverable error, requiring
progress on every round (nom errors out on a successful parse that
consumes nothing); `Err::Failure` and panics propagate.  The iteration
fuel is always called with more rounds than the input has bytes, so the
`out` case is unreachable from `parse_value`. -/
def many0 {α : Type} (p : List Nat → PResult α) : Nat → List Nat → PResult (List α)
  | 0, _ => .out
  | g+1, input =>
    match p input with
    | .ok rest a =>
      if rest.length < input.length then
        match many0 p g rest with
        | .ok r2 as => .ok r2 (a :: as)
        | .err => .err
        | .fail => .fail
        | .panic => .panic
        | .out => .out
      else .err
    | .err => .ok input []
    | .fail => .fail
    | .panic => .panic
    | .out => .out

/-- `tuple((parse_string, parse_value))` used by `parse_dict`. -/
def pairP (pv : List Nat → PResult Value) (input : List Nat) : PResult (List Nat × Value) :=
  pbind (parse_string input) fun i1 k =>
  pbind (pv i1) fun i2 v =>
  .ok i2 (k, v)

/-- `parse_value` from src/bencode.rs:
`alt((parse_string_value, parse_integer, parse_list, parse_dict))`.
`parse_list` (`l<value*>e`) and `parse_dict` (`d(<str><value>)*e`) are
inlined; the dict production collects its pairs with
`ps.into_iter().collect::<BTreeMap<_,_>>()`, i.e. `btree_of_list`.
The fuel bounds the nesting depth; each level consumes at least the
opening byte of its bracket, so the fuel supplied by `parse` suffices. -/
def parse_value : Nat → List Nat → PResult Value
  | 0, _ => .out
  | f+1, input =>
    palt
      (pbind (parse_string input) fun i1 s => .ok i1 (Value.String s))
      fun _ =>
    palt (parse_integer input) fun _ =>
    palt
      (pbind (tagB 108 input) fun i1 _ =>
       pbind (many0 (parse_value f) (i1.length + 1) i1) fun i2 vs =>
       pbind (tagB 101 i2) fun i3 _ =>
       .ok i3 (Value.List vs))
      fun _ =>
    pbind (tagB 100 input) fun i1 _ =>
    pbind (many0 (pairP (parse_value f)) (i1.length + 1) i1) fun i2 ps =>
    pbind (tagB 101 i2) fun i3 _ =>
    .ok i3 (Value.Dict (btree_of_list ps))

/-- Outcome of the public `parse`: Rust returns `Result<Value, ()>`,
collapsing every nom error into the single untagged `Err(())`; a panic
aborts instead of returning.  `out` is the model's fuel marker. -/
inductive ParseResult where
  | ok : Value → ParseResult
  | error : ParseResult
  | panic : ParseResult
  | out : ParseResult

/-- `parse` from src/bencode.rs:
`all_consuming(terminated(parse_value, opt(tag("\n"))))`, with both
error variants mapped to `Err(())`. -/
def parse (input : List Nat) : ParseResult :=
  let r :=
    pbind (parse_value (input.length + 1) input) fun rest v =>
    let rest2 := if rest.headD 0 = 10 then rest.tail else rest
    if rest2.isEmpty then .ok rest2 v else .err
  match r with
  | .ok _ v => .ok v
  | .err => .error
  | .fail => .error
  | .panic => .panic
  | .out => .out

/-- Decimal digits of a natural number, as produced by Rust's `Display`
(most significant first, no leading zeros, `0` for zero).  Fuel keeps
the recursion structural; `n + 1` rounds always suffice. -/
def natToDigitsAux : Nat → Nat → List Nat
  | 0, _ => []
  | f+1, n => if n < 10 then [48 + n] else natToDigitsAux f (n / 10) ++ [48 + n % 10]

/-- Decimal digit bytes of `n`. -/
def natToDigits (n : Nat) : List Nat := natToDigitsAux (n + 1) n

/-- Byte output of Rust `format!("{}", i)` for an integer: optional
minus sign, then decimal digits of the absolute value. -/
def intToBytes (i : Int) : List Nat :=
  if i < 0 then 45 :: natToDigits i.natAbs else natToDigits i.natAbs

/-- `encode_string` from src/bencode.rs: `<len>:<bytes>` (the length is
the byte length, `str::len`). -/
def encode_string (s : List Nat) : List Nat := natToDigits s.length ++ [58] ++ s

/-- `encode_integer` from src/bencode.rs: `i<num>e`. -/
def encode_integer (i : Int) : List Nat := [105] ++ intToBytes i ++ [101]

mutual

/-- `encode_value` from src/bencode.rs.  The `encode_list` and
`encode_dict` loops are the mutual companions below. -/
def encode_value : Value → List Nat
  | .String s => encode_string s
  | .Int i => encode_integer i
  | .List vs => 108 :: encode_values vs ++ [101]
  | .Dict ps => 100 :: encode_pairs ps ++ [101]

/-- Body of the `encode_list` loop: the concatenated encodings of the
elements, in order. -/
def encode_values : List Value → List Nat
  | [] => []
  | v :: vs => encode_value v ++ encode_values vs

/-- Body of the `encode_dict` loop: for each entry in iteration order,
the encoded key then the encoded value. -/
def encode_pairs : List (List Nat × Value) → List Nat
  | [] => []
  | (k, v) :: ps => encode_string k ++ encode_value v ++ encode_pairs ps

end

/-- `encode` from src/bencode.rs. -/
def encode (v : Value) : List Nat := encode_value v

mutual

/-- A `Value` that the Rust program can construct and round-trip:
every `Dict` has strictly ascending keys (the `BTreeMap` invariant),
every `Int` is in the `i32` range (enforced by the Rust type), and
every string and key is shorter than 2^32 bytes (longer ones make the
parser's `u32` length unwrap panic, see `roundtrip_huge_string`). -/
def wf_value : Value → Bool
  | .String s => decide (s.length < 4294967296)
  | .Int i => decide (-2147483648 ≤ i) && decide (i ≤ 2147483647)
  | .List vs => wf_values vs
  | .Dict ps => sorted_keys ps && wf_pairs ps

/-- All elements well-formed. -/
def wf_values : List Value → Bool
  | [] => true
  | v :: vs => wf_value v && wf_values vs

/-- All keys shorter than 2^32 bytes and all values well-formed
(no ordering constraint on the keys themselves). -/
def wf_pairs : List (List Nat × Value) → Bool
  | [] => true
  | (k, v) :: ps => decide (k.length < 4294967296) && wf_value v && wf_pairs ps

end

/-! ## Server model (src/server/mod.rs)

The handlers obtain their peer records and per-torrent statistics from the
external peer store, which is out of scope for this core (the file under
verification stubs it with an empty `vec![]`).  The models below therefore
take those store-supplied lists as parameters and translate the handler
bodies verbatim. -/

/-- `std::net::IpAddr`: a v4 address as its four octets (each a `u8`),
a v6 address as its `u128` value. -/
inductive IpAddr where
  | v4 : Nat → Nat → Nat → Nat → IpAddr
  | v6 : Nat → IpAddr

/-- The `Peer` record of src/server/mod.rs. -/
structure Peer where
  peer_id : List Nat
  ip : IpAddr
  port : Nat

/-- `bytes::BufMut::put_u16`: big-endian bytes of a `u16`. -/
def put_u16 (n : Nat) : List Nat := [n / 256 % 256, n % 256]

/-- `bytes::BufMut::put_u32`: big-endian bytes of a `u32`. -/
def put_u32 (n : Nat) : List Nat :=
  [n / 16777216 % 256, n / 65536 % 256, n / 256 % 256, n % 256]

/-- `bytes::BufMut::put_u128`: the 16 big-endian bytes of a `u128`. -/
def put_u128 (n : Nat) : List Nat :=
  (List.range 16).map fun i => n / 256 ^ (15 - i) % 256

/-- `u32::from(Ipv4Addr)`: the address's four octets read big-endian. -/
def ipv4_to_u32 (a b c d : Nat) : Nat := ((a * 256 + b) * 256 + c) * 256 + d

/-- Loop body of the compact-representation `for peer in peers` loop:
append the packed record to the buffer of the peer's address family. -/
def announce_fold (acc : List Nat × List Nat) (peer : Peer) : List Nat × List Nat :=
  match peer.ip with
  | .v4 a b c d => (acc.1 ++ put_u32 (ipv4_to_u32 a b c d) ++ put_u16 peer.port, acc.2)
  | .v6 n => (acc.1, acc.2 ++ put_u128 n ++ put_u16 peer.port)

/-- The two packed buffers (`peer_string`, `peer6_string`) built by the
compact branch of `announce`. -/
def compact_blobs (peers : List Peer) : List Nat × List Nat :=
  peers.foldl announce_fold ([], [])

/-- `core::str::from_utf8` validity (the Unicode UTF-8 byte table):
used by the compact branch's `from_utf8(..).unwrap()`. -/
def validUtf8 : List Nat → Bool
  | [] => true
  | b :: rest =>
    if b ≤ 127 then validUtf8 rest
    else if 194 ≤ b ∧ b ≤ 223 then
      match rest with
      | c :: rest2 => 128 ≤ c && c ≤ 191 && validUtf8 rest2
      | [] => false
    else if b = 224 then
      match rest with
      | c :: d :: rest3 => 160 ≤ c && c ≤ 191 && 128 ≤ d && d ≤ 191 && validUtf8 rest3
      | _ => false
    else if (225 ≤ b ∧ b ≤ 236) ∨ b = 238 ∨ b = 239 then
      match rest with
      | c :: d :: rest3 => 128 ≤ c && c ≤ 191 && 128 ≤ d && d ≤ 191 && validUtf8 rest3
      | _ => false
    else if b = 237 then
      match rest with
      | c :: d :: rest3 => 128 ≤ c && c ≤ 159 && 128 ≤ d && d ≤ 191 && validUtf8 rest3
      | _ => false
    else if b = 240 then
      match rest with
      | c :: d :: e :: rest4 =>
        144 ≤ c && c ≤ 191 && 128 ≤ d && d ≤ 191 && 128 ≤ e && e ≤ 191 && validUtf8 rest4
      | _ => false
    else if 241 ≤ b ∧ b ≤ 243 then
      match rest with
      | c :: d :: e :: rest4 =>
        128 ≤ c && c ≤ 191 && 128 ≤ d && d ≤ 191 && 128 ≤ e && e ≤ 191 && validUtf8 rest4
      | _ => false
    else if b = 244 then
      match rest with
      | c :: d :: e :: rest4 =>
        128 ≤ c && c ≤ 143 && 128 ≤ d && d ≤ 191 && 128 ≤ e && e ≤ 191 && validUtf8 rest4
      | _ => false
    else false

/-- Lowercase hexadecimal digit byte (`0`..`9`, `a`..`f`). -/
def hexDigit (h : Nat) : Nat := if h < 10 then 48 + h else 87 + h

/-- Lowercase hexadecimal digits of `n`, most significant first, no
leading zeros (`0` for zero).  Fuelled like `natToDigitsAux`. -/
def natToHexAux : Nat → Nat → List Nat
  | 0, _ => []
  | f+1, n => if n < 16 then [hexDigit n] else natToHexAux f (n / 16) ++ [hexDigit (n % 16)]

/-- Lowercase hexadecimal digit bytes of `n`. -/
def natToHex (n : Nat) : List Nat := natToHexAux (n + 1) n

/-- Models the Rust standard library `Display for IpAddr` (code external
to this repository).  IPv4 is the exact dotted decimal form; IPv6 is
rendered as the eight colon-separated lowercase hex groups (the standard
library additionally compresses the longest zero run; no claim below
depends on the content of this string, only on where `announce` places
it). -/
def ip_to_string : IpAddr → List Nat
  | .v4 a b c d =>
    natToDigits a ++ [46] ++ natToDigits b ++ [46] ++ natToDigits c ++ [46] ++ natToDigits d
  | .v6 n =>
    let groups := (List.range 8).map fun i => natToHex (n / 65536 ^ (7 - i) % 65536)
    match groups with
    | [] => []
    | g0 :: gs => g0 ++ (gs.map fun g => 58 :: g).flatten

/-- The per-peer dictionary of the BEP 3 long form:
`{"peer id": .., "ip": .., "port": ..}`, whose `BTreeMap` iteration
order is `ip` < `peer id` < `port` in byte order. -/
def peer_dict (p : Peer) : Value :=
  .Dict [(istr "ip", .String (ip_to_string p.ip)),
         (istr "peer id", .String p.peer_id),
         (istr "port", .Int p.port)]

/-- The `data` map of the compact branch of `announce`; `BTreeMap`
iteration order is `interval` < `peers` < `peers6`. -/
def announce_compact_data (p4 p6 : List Nat) : List (List Nat × Value) :=
  [(istr "interval", .Int 30), (istr "peers", .String p4), (istr "peers6", .String p6)]

/-- The `data` map of the long-form branch of `announce`; `BTreeMap`
iteration order is `interval` < `peers` (there is no `peers6` entry). -/
def announce_long_data (peers : List Peer) : List (List Nat × Value) :=
  [(istr "interval", .Int 30), (istr "peers", .List (peers.map peer_dict))]

/-- Outcome of a handler: the response body, or a Rust panic. -/
inductive HandlerResult where
  | ok : List Nat → HandlerResult
  | panic : HandlerResult

/-- `announce` from src/server/mod.rs, parameterised by the request's
`compact` field and the store-supplied peer list.  The compact branch
reinterprets each packed buffer with `from_utf8(..).unwrap()`, which
panics when the buffer is not valid UTF-8. -/
def announce (compact : Option Nat) (peers : List Peer) : HandlerResult :=
  if compact.getD 1 = 1 then
    let blobs := compact_blobs peers
    if validUtf8 blobs.1 && validUtf8 blobs.2 then
      .ok (encode (.Dict (announce_compact_data blobs.1 blobs.2)))
    else .panic
  else
    .ok (encode (.Dict (announce_long_data peers)))

/-- `InfoHashData` from src/server/mod.rs: the per-torrent statistics
record supplied by the store.  Note the record carries a `peer_id`
field and no info-hash field. -/
structure InfoHashData where
  peer_id : List Nat
  complete : Nat
  downloaded : Nat
  incomplete : Nat

/-- The `data_dict` statistics map built by `scrape` for one record;
`BTreeMap` iteration order is `complete` < `downloaded` < `incomplete`. -/
def stats_dict (d : InfoHashData) : Value :=
  .Dict [(istr "complete", .Int d.complete),
         (istr "downloaded", .Int d.downloaded),
         (istr "incomplete", .Int d.incomplete)]

/-- `scrape` from src/server/mod.rs, parameterised by the store-supplied
records: builds `files` by inserting, for each record, the key
`data.peer_id` with the record's statistics dict, then encodes
`{"files": files}`. -/
def scrape (datas : List InfoHashData) : List Nat :=
  let files := datas.foldl (fun m d => btreeInsert d.peer_id (stats_dict d) m) []
  encode (.Dict [(istr "files", .Dict files)])

/-! ## List and digit helper lemmas -/

theorem takeWhile_append_all {p : Nat → Bool} :
    ∀ (xs : List Nat) {y : Nat} (ys : List Nat),
      (∀ b ∈ xs, p b = true) → p y = false →
      (xs ++ y :: ys).takeWhile p = xs := by
  intro xs
  induction xs with
  | nil => intro y ys _ hy; simp [List.takeWhile, hy]
  | cons x xs ih =>
    intro y ys hall hy
    have hx : p x = true := hall x (by simp)
    simp only [List.cons_append, List.takeWhile, hx]
    exact congrArg (x :: ·) (ih ys (fun b hb => hall b (by simp [hb])) hy)

theorem dropWhile_append_all {p : Nat → Bool} :
    ∀ (xs : List Nat) {y : Nat} (ys : List Nat),
      (∀ b ∈ xs, p b = true) → p y = false →
      (xs ++ y :: ys).dropWhile p = y :: ys := by
  intro xs
  induction xs with
  | nil => intro y ys _ hy; simp [List.dropWhile, hy]
  | cons x xs ih =>
    intro y ys hall hy
    have hx : p x = true := hall x (by simp)
    simp only [List.cons_append, List.dropWhile, hx]
    exact ih ys (fun b hb => hall b (by simp [hb])) hy

theorem digitsToNat_replicate_zero_append (z : Nat) (ds : List Nat) :
    digitsToNat (List.replicate z 48 ++ ds) = digitsToNat ds := by
  have hz : ∀ z2, List.foldl (fun acc d => 10 * acc + (d - 48)) 0 (List.replicate z2 48) = 0 := by
    intro z2
    induction z2 with
    | zero => rfl
    | succ z3 ih => simpa [List.replicate_succ] using ih
  simp [digitsToNat, List.foldl_append, hz]

theorem natToDigitsAux_congr :
    ∀ (n f1 f2 : Nat), n < f1 → n < f2 → natToDigitsAux f1 n = natToDigitsAux f2 n := by
  intro n
  induction n using Nat.strong_induction_on with
  | _ n ih =>
    intro f1 f2 h1 h2
    match f1, f2 with
    | g1+1, g2+1 =>
      by_cases hlt : n < 10
      · simp [natToDigitsAux, hlt]
      · have hn : 10 ≤ n := Nat.le_of_not_lt hlt
        have hdiv : n / 10 < n := Nat.div_lt_self (by omega) (by omega)
        simp only [natToDigitsAux, if_neg hlt]
        exact congrArg (· ++ [48 + n % 10])
          (ih (n / 10) hdiv g1 g2 (by omega) (by omega))

theorem natToDigits_eq (n : Nat) :
    natToDigits n = if n < 10 then [48 + n] else natToDigits (n / 10) ++ [48 + n % 10] := by
  by_cases hlt : n < 10
  · simp [natToDigits, natToDigitsAux, hlt]
  · have hdiv : n / 10 < n := Nat.div_lt_self (by omega) (by omega)
    simp only [natToDigits, natToDigitsAux, if_neg hlt, hlt]
    exact congrArg (· ++ [48 + n % 10])
      (natToDigitsAux_congr (n / 10) n (n / 10 + 1) (by omega) (by omega))

theorem natToDigits_all_digits (n : Nat) :
    ∀ b ∈ natToDigits n, 48 ≤ b ∧ b ≤ 57 := by
  induction n using Nat.strong_induction_on with
  | _ n ih =>
    rw [natToDigits_eq]
    by_cases hlt : n < 10
    · intro b hb
      simp [hlt] at hb
      omega
    · have hdiv : n / 10 < n := Nat.div_lt_self (by omega) (by omega)
      have hmod : n % 10 < 10 := Nat.mod_lt _ (by omega)
      simp only [if_neg hlt, List.mem_append, List.mem_singleton]
      rintro b (hb | rfl)
      · exact ih (n / 10) hdiv b hb
      · omega

theorem natToDigits_ne_nil (n : Nat) : natToDigits n ≠ [] := by
  rw [natToDigits_eq]
  by_cases hlt : n < 10 <;> simp [hlt]

theorem digitsToNat_natToDigits (n : Nat) : digitsToNat (natToDigits n) = n := by
  induction n using Nat.strong_induction_on with
  | _ n ih =>
    rw [natToDigits_eq]
    by_cases hlt : n < 10
    · simp [hlt, digitsToNat]
    · have hdiv : n / 10 < n := Nat.div_lt_self (by omega) (by omega)
      simp only [if_neg hlt, digitsToNat, List.foldl_append, List.foldl]
      have h2 := ih (n / 10) hdiv
      simp only [digitsToNat] at h2
      rw [h2]
      omega

theorem natToDigits_head_nonzero (n : Nat) (hn : n ≠ 0) :
    ∃ d ds, natToDigits n = d :: ds ∧ 49 ≤ d ∧ d ≤ 57 := by
  induction n using Nat.strong_induction_on with
  | _ n ih =>
    rw [natToDigits_eq]
    by_cases hlt : n < 10
    · refine ⟨48 + n, [], by simp [hlt], by omega, by omega⟩
    · have hdiv : n / 10 < n := Nat.div_lt_self (by omega) (by omega)
      have hndiv : n / 10 ≠ 0 := by
        have h10 : 10 ≤ n := Nat.le_of_not_lt hlt
        have := Nat.one_le_div_iff (by omega : 0 < 10) |>.mpr h10
        omega
      obtain ⟨d, ds, heq, h1, h2⟩ := ih (n / 10) hdiv hndiv
      exact ⟨d, ds ++ [48 + n % 10], by simp [if_neg hlt, heq], h1, h2⟩

/-! ## Parser specification lemmas -/

/-- The byte after a well-placed split is ASCII (or the input ends):
enough for `str::split_at` not to panic there. -/
def restOk (t : List Nat) : Prop := t.headD 0 < 128

theorem restOk_nil : restOk [] := by simp [restOk]

theorem restOk_cons {b : Nat} (t : List Nat) (hb : b < 128) : restOk (b :: t) := by
  simpa [restOk] using hb

theorem headD_append_of_ne_nil {l r : List Nat} (h : l ≠ []) :
    (l ++ r).headD 0 = l.headD 0 := by
  cases l with
  | nil => exact absurd rfl h
  | cons x xs => rfl

theorem parse_numeric_spec (ds t : List Nat) (hne : ds ≠ [])
    (hd : ∀ b ∈ ds, is_numeric b = true) :
    parse_numeric (ds ++ 58 :: t) =
      if digitsToNat ds < 4294967296 then .ok (58 :: t) (digitsToNat ds) else .panic := by
  have h58 : is_numeric 58 = false := rfl
  have hemp : ds.isEmpty = false := by cases ds with
    | nil => exact absurd rfl hne
    | cons x xs => rfl
  simp only [parse_numeric, takeWhile_append_all ds t hd h58,
    dropWhile_append_all ds t hd h58, hemp, Bool.false_eq_true, if_false]

theorem parse_numeric_err {b : Nat} (t : List Nat) (hb : is_numeric b = false) :
    parse_numeric (b :: t) = .err := by
  simp [parse_numeric, List.takeWhile, hb]

theorem isCharBoundary_append (s t : List Nat) (ht : restOk t) :
    isCharBoundary (s ++ t) s.length = true := by
  cases t with
  | nil => simp [isCharBoundary]
  | cons b t2 =>
    by_cases hs : s = []
    · subst hs; simp [isCharBoundary]
    · have hlt : s.length < (s ++ b :: t2).length := by simp
      have hget : (s ++ b :: t2).get? s.length = some b := by
        rw [List.get?_append_right (Nat.le_refl _)]
        simp
      have hb : b < 128 := by simpa [restOk] using ht
      simp only [isCharBoundary, hget]
      have h0 : s.length ≠ 0 := by
        intro h; exact hs (List.eq_nil_of_length_eq_zero h)
      simp [h0, Nat.ne_of_lt hlt, hb]

theorem parse_string_enc (s t : List Nat) (hlen : s.length < 4294967296)
    (ht : restOk t) : parse_string (encode_string s ++ t) = .ok t s := by
  have hassoc : encode_string s ++ t = natToDigits s.length ++ 58 :: (s ++ t) := by
    simp [encode_string]
  rw [hassoc, parse_string,
    parse_numeric_spec (natToDigits s.length) (s ++ t) (natToDigits_ne_nil _)
      (fun b hb => by
        have := natToDigits_all_digits s.length b hb
        simp [is_numeric]; omega)]
  rw [digitsToNat_natToDigits]
  have hle : s.length ≤ (s ++ t).length := by simp
  simp [hlen, pbind, tagB, hle, isCharBoundary_append s t ht,
    List.take_left, List.drop_left]

theorem parse_string_err {b : Nat} (t : List Nat) (hb : is_numeric b = false) :
    parse_string (b :: t) = .err := by
  simp [parse_string, parse_numeric_err t hb, pbind]

theorem parse_string_nil : parse_string [] = .err := rfl

theorem intToBytes_nonneg (i : Int) (h : 0 ≤ i) : intToBytes i = natToDigits i.natAbs := by
  simp [intToBytes, Int.not_lt.mpr h]

theorem parse_integer_numeric_part_enc (i : Int) (t : List Nat)
    (h1 : -2147483648 ≤ i) (h2 : i ≤ 2147483647) :
    parse_integer_numeric_part (intToBytes i ++ 101 :: t) = .ok (101 :: t) i := by
  have h101 : is_numeric 101 = false := rfl
  rcases lt_trichotomy i 0 with hneg | hzero | hpos
  · -- negative: a minus sign, then the digits of the absolute value
    have habs : i.natAbs ≠ 0 := by
      intro h; rw [Int.natAbs_eq_zero] at h; omega
    obtain ⟨d, ds, heq, hd1, hd2⟩ := natToDigits_head_nonzero i.natAbs habs
    have hall := natToDigits_all_digits i.natAbs
    rw [heq] at hall
    have hds : ∀ b ∈ ds, is_numeric b = true := fun b hb => by
      have := hall b (by simp [hb])
      simp [is_numeric]; omega
    have hinput : intToBytes i ++ 101 :: t = 45 :: (d :: (ds ++ 101 :: t)) := by
      have hb : intToBytes i = 45 :: d :: ds := by
        simp [intToBytes, hneg, heq]
      simp [hb]
    rw [hinput]
    have hnz : is_nonzero_numeric d = true := by
      simp [is_nonzero_numeric, is_numeric]; omega
    have hval : bytesToInt (45 :: d :: ds) = i := by
      have hstep : bytesToInt (45 :: d :: ds) = -(digitsToNat (d :: ds) : Int) := rfl
      rw [hstep, show (d :: ds) = natToDigits i.natAbs from heq.symm, digitsToNat_natToDigits]
      omega
    simp [parse_integer_numeric_part, palt, pbind, hnz, hval, h1, h2,
      takeWhile_append_all ds t hds h101, dropWhile_append_all ds t hds h101]
  · subst hzero
    have hz : intToBytes 0 = [48] := rfl
    rw [hz]
    rfl
  · -- positive: digits with a nonzero leading digit
    have habs : i.natAbs ≠ 0 := by
      intro h; rw [Int.natAbs_eq_zero] at h; omega
    obtain ⟨d, ds, heq, hd1, hd2⟩ := natToDigits_head_nonzero i.natAbs habs
    have hall := natToDigits_all_digits i.natAbs
    rw [heq] at hall
    have hds : ∀ b ∈ ds, is_numeric b = true := fun b hb => by
      have := hall b (by simp [hb])
      simp [is_numeric]; omega
    have hinput : intToBytes i ++ 101 :: t = d :: (ds ++ 101 :: t) := by
      have hb : intToBytes i = d :: ds := by
        rw [intToBytes_nonneg i (by omega), heq]
      simp [hb]
    rw [hinput]
    have hnz : is_nonzero_numeric d = true := by
      simp [is_nonzero_numeric, is_numeric]; omega
    have hd48 : ¬(d = 48) := by omega
    have hd45 : ¬(d = 45) := by omega
    have hval : bytesToInt (d :: ds) = i := by
      have hstep : bytesToInt (d :: ds) = (digitsToNat (d :: ds) : Int) := by
        simp [bytesToInt, hd45]
      rw [hstep, show (d :: ds) = natToDigits i.natAbs from heq.symm, digitsToNat_natToDigits]
      omega
    simp [parse_integer_numeric_part, palt, pbind, hnz, hval, h1, h2, hd48, hd45,
      takeWhile_append_all ds t hds h101, dropWhile_append_all ds t hds h101]

theorem parse_integer_enc (i : Int) (t : List Nat)
    (h1 : -2147483648 ≤ i) (h2 : i ≤ 2147483647) :
    parse_integer (encode_integer i ++ t) = .ok t (Value.Int i) := by
  have hassoc : encode_integer i ++ t = 105 :: (intToBytes i ++ 101 :: t) := by
    simp [encode_integer]
  rw [hassoc, parse_integer]
  simp [tagB, pbind, parse_integer_numeric_part_enc i t h1 h2]

theorem parse_integer_err {b : Nat} (t : List Nat) (hb : b ≠ 105) :
    parse_integer (b :: t) = .err := by
  simp [parse_integer, tagB, hb, pbind]

theorem parse_integer_nil : parse_integer [] = .err := rfl

/-! ## Round-trip soundness -/

theorem parse_value_err {b : Nat} (f : Nat) (t : List Nat)
    (hnum : is_numeric b = false) (h105 : b ≠ 105) (h108 : b ≠ 108) (h100 : b ≠ 100) :
    parse_value (f+1) (b :: t) = .err := by
  simp [parse_value, parse_string_err t hnum, parse_integer_err t h105,
    palt, pbind, tagB, h108, h100]

theorem parse_value_zero_lt (f : Nat) (input : List Nat) (h : 0 < f) :
    parse_value f input = parse_value (f.pred + 1) input := by
  cases f with
  | zero => omega
  | succ f0 => rfl

mutual

theorem encode_value_ne_nil (v : Value) : encode_value v ≠ [] := by
  cases v with
  | String s =>
    simp only [encode_value, encode_string]
    intro h
    exact natToDigits_ne_nil s.length (List.append_eq_nil.mp (List.append_eq_nil.mp h).1).1
  | Int i => simp [encode_value, encode_integer]
  | List vs => simp [encode_value]
  | Dict ps => simp [encode_value]

end

theorem encode_values_length_ge (vs : List Value) :
    vs.length ≤ (encode_values vs).length := by
  induction vs with
  | nil => simp [encode_values]
  | cons v vs ih =>
    have h1 : 1 ≤ (encode_value v).length := by
      have := encode_value_ne_nil v
      cases h : encode_value v with
      | nil => exact absurd h this
      | cons x xs => simp
    simp only [encode_values, List.length_append, List.length_cons]
    omega

theorem encode_pairs_length_ge (ps : List (List Nat × Value)) :
    ps.length ≤ (encode_pairs ps).length := by
  induction ps with
  | nil => simp [encode_pairs]
  | cons p ps ih =>
    obtain ⟨k, v⟩ := p
    have h1 : 1 ≤ (encode_value v).length := by
      have := encode_value_ne_nil v
      cases h : encode_value v with
      | nil => exact absurd h this
      | cons x xs => simp
    simp only [encode_pairs, List.length_append, List.length_cons]
    omega

theorem encode_value_headD_lt (v : Value) : (encode_value v).headD 0 < 128 := by
  cases v with
  | String s =>
    simp only [encode_value, encode_string, List.append_assoc]
    rw [headD_append_of_ne_nil (natToDigits_ne_nil _)]
    cases h : natToDigits s.length with
    | nil => exact absurd h (natToDigits_ne_nil _)
    | cons d ds =>
      have := natToDigits_all_digits s.length d (by simp [h])
      simp only [List.headD]
      omega
  | Int i => simp [encode_value, encode_integer]
  | List vs => simp [encode_value]
  | Dict ps => simp [encode_value]

theorem restOk_values (vs : List Value) (t : List Nat) :
    restOk (encode_values vs ++ 101 :: t) := by
  cases vs with
  | nil => simp [encode_values, restOk]
  | cons v vs =>
    simp only [encode_values, restOk, List.append_assoc]
    rw [headD_append_of_ne_nil (encode_value_ne_nil v)]
    exact encode_value_headD_lt v

theorem restOk_pairs (ps : List (List Nat × Value)) (t : List Nat) :
    restOk (encode_pairs ps ++ 101 :: t) := by
  cases ps with
  | nil => simp [encode_pairs, restOk]
  | cons p ps =>
    obtain ⟨k, v⟩ := p
    simp only [encode_pairs, restOk, List.append_assoc, encode_string]
    rw [headD_append_of_ne_nil (natToDigits_ne_nil _)]
    cases h : natToDigits k.length with
    | nil => exact absurd h (natToDigits_ne_nil _)
    | cons d ds =>
      have := natToDigits_all_digits k.length d (by simp [h])
      simp only [List.headD]
      omega

theorem ltBytes_irrefl : ∀ l : List Nat, ltBytes l l = false := by
  intro l
  induction l with
  | nil => rfl
  | cons a as ih => simp [ltBytes, ih]

theorem ltBytes_trans : ∀ (a b c : List Nat),
    ltBytes a b = true → ltBytes b c = true → ltBytes a c = true := by
  intro a
  induction a with
  | nil =>
    intro b c hab hbc
    cases b with
    | nil => simp [ltBytes] at hab
    | cons y bs =>
      cases c with
      | nil => simp [ltBytes] at hbc
      | cons z cs => simp [ltBytes]
  | cons x as ih =>
    intro b c hab hbc
    cases b with
    | nil => simp [ltBytes] at hab
    | cons y bs =>
      cases c with
      | nil => simp [ltBytes] at hbc
      | cons z cs =>
        simp only [ltBytes] at hab hbc ⊢
        by_cases hxy : x < y
        · by_cases hyz : y < z
          · simp [show x < z by omega]
          · simp only [if_neg hyz] at hbc
            by_cases hzy : z < y
            · simp [hzy] at hbc
            · simp [show x < z by omega]
        · simp only [if_neg hxy] at hab
          by_cases hyx : y < x
          · simp [hyx] at hab
          · have hxeq : x = y := by omega
            subst hxeq
            by_cases hyz : x < z
            · simp [hyz]
            · simp only [if_neg hyz] at hbc ⊢
              by_cases hzy : z < x
              · simp [hzy] at hbc
              · simp only [if_neg hzy] at hbc ⊢
                simp only [if_neg hxy] at hab
                exact ih bs cs hab hbc

theorem ltBytes_total : ∀ (a b : List Nat),
    ltBytes a b = false → a ≠ b → ltBytes b a = true := by
  intro a
  induction a with
  | nil =>
    intro b hab hne
    cases b with
    | nil => exact absurd rfl hne
    | cons y bs => simp [ltBytes] at hab
  | cons x as ih =>
    intro b hab hne
    cases b with
    | nil => simp [ltBytes]
    | cons y bs =>
      simp only [ltBytes] at hab ⊢
      by_cases hxy : x < y
      · simp [hxy] at hab
      · simp only [if_neg hxy] at hab
        by_cases hyx : y < x
        · simp [hyx]
        · have hxeq : x = y := by omega
          subst hxeq
          simp only [if_neg hyx, if_neg hxy] at hab ⊢
          refine ih bs hab ?_
          intro h
          exact hne (by rw [h])

theorem sorted_keys_tail {p : List Nat × Value} {ps : List (List Nat × Value)}
    (h : sorted_keys (p :: ps) = true) : sorted_keys ps = true := by
  obtain ⟨k, v⟩ := p
  cases ps with
  | nil => rfl
  | cons q qs =>
    obtain ⟨k2, v2⟩ := q
    simp only [sorted_keys, Bool.and_eq_true] at h
    exact h.2

theorem sorted_keys_lt_all {k : List Nat} {v : Value} {ps : List (List Nat × Value)}
    (h : sorted_keys ((k, v) :: ps) = true) : ∀ p ∈ ps, ltBytes k p.1 = true := by
  induction ps generalizing k v with
  | nil => intro p hp; simp at hp
  | cons q qs ih =>
    obtain ⟨k2, v2⟩ := q
    have hlt : ltBytes k k2 = true := by
      simp only [sorted_keys, Bool.and_eq_true] at h
      exact h.1
    have htl : sorted_keys ((k2, v2) :: qs) = true := sorted_keys_tail h
    intro p hp
    rcases List.mem_cons.mp hp with rfl | hp2
    · exact hlt
    · exact ltBytes_trans k k2 p.1 hlt (ih htl p hp2)

theorem sorted_keys_cons_iff {k : List Nat} {v : Value} {ps : List (List Nat × Value)} :
    sorted_keys ((k, v) :: ps) = true ↔
      (sorted_keys ps = true ∧ ∀ p ∈ ps, ltBytes k p.1 = true) := by
  constructor
  · intro h
    exact ⟨sorted_keys_tail h, sorted_keys_lt_all h⟩
  · rintro ⟨hs, ha⟩
    cases ps with
    | nil => rfl
    | cons q qs =>
      obtain ⟨k2, v2⟩ := q
      simp only [sorted_keys, Bool.and_eq_true]
      exact ⟨ha (k2, v2) (by simp), hs⟩

theorem mem_btreeInsert {k : List Nat} {v : Value} {p : List Nat × Value} :
    ∀ {m : List (List Nat × Value)}, p ∈ btreeInsert k v m → p = (k, v) ∨ p ∈ m := by
  intro m
  induction m with
  | nil => intro h; simp [btreeInsert] at h; simp [h]
  | cons q qs ih =>
    obtain ⟨k2, v2⟩ := q
    intro h
    simp only [btreeInsert] at h
    by_cases h1 : ltBytes k k2 = true
    · rw [if_pos h1] at h
      rcases List.mem_cons.mp h with rfl | h2
      · exact Or.inl rfl
      · exact Or.inr h2
    · rw [if_neg h1] at h
      by_cases h2 : k = k2
      · rw [if_pos h2] at h
        rcases List.mem_cons.mp h with rfl | h3
        · exact Or.inl rfl
        · exact Or.inr (by simp [h3])
      · rw [if_neg h2] at h
        rcases List.mem_cons.mp h with rfl | h3
        · exact Or.inr (by simp)
        · rcases ih h3 with h4 | h4
          · exact Or.inl h4
          · exact Or.inr (by simp [h4])

theorem btreeInsert_sorted (k : List Nat) (v : Value) :
    ∀ (m : List (List Nat × Value)), sorted_keys m = true →
      sorted_keys (btreeInsert k v m) = true := by
  intro m
  induction m with
  | nil => intro _; rfl
  | cons q qs ih =>
    obtain ⟨k2, v2⟩ := q
    intro h
    have hqs := sorted_keys_tail h
    have hall := sorted_keys_lt_all h
    simp only [btreeInsert]
    by_cases h1 : ltBytes k k2 = true
    · rw [if_pos h1]
      refine sorted_keys_cons_iff.mpr ⟨h, ?_⟩
      intro p hp
      rcases List.mem_cons.mp hp with rfl | hp2
      · exact h1
      · exact ltBytes_trans k k2 p.1 h1 (hall p hp2)
    · rw [if_neg h1]
      by_cases h2 : k = k2
      · rw [if_pos h2]
        subst h2
        exact sorted_keys_cons_iff.mpr ⟨hqs, hall⟩
      · rw [if_neg h2]
        have hk2k : ltBytes k2 k = true :=
          ltBytes_total k k2 (Bool.not_eq_true _ ▸ h1 : ltBytes k k2 = false) h2
        refine sorted_keys_cons_iff.mpr ⟨ih hqs, ?_⟩
        intro p hp
        rcases mem_btreeInsert hp with rfl | hp2
        · exact hk2k
        · exact hall p hp2

theorem btree_of_list_sorted (ps : List (List Nat × Value)) :
    sorted_keys (btree_of_list ps) = true := by
  have hgen : ∀ (qs : List (List Nat × Value)) (acc : List (List Nat × Value)),
      sorted_keys acc = true →
      sorted_keys (qs.foldl (fun m p => btreeInsert p.1 p.2 m) acc) = true := by
    intro qs
    induction qs with
    | nil => intro acc h; simpa using h
    | cons q qs2 ih =>
      intro acc h
      exact ih (btreeInsert q.1 q.2 acc) (btreeInsert_sorted q.1 q.2 acc h)
  exact hgen ps [] rfl

theorem btreeInsert_append (k : List Nat) (v : Value) :
    ∀ (m : List (List Nat × Value)), (∀ p ∈ m, ltBytes p.1 k = true) →
      btreeInsert k v m = m ++ [(k, v)] := by
  intro m
  induction m with
  | nil => intro _; rfl
  | cons q qs ih =>
    obtain ⟨k2, v2⟩ := q
    intro h
    have hk2 : ltBytes k2 k = true := h (k2, v2) (by simp)
    have h1 : ltBytes k k2 = false := by
      by_contra hc
      have := ltBytes_trans k k2 k (Bool.not_eq_false _ ▸ hc) hk2
      rw [ltBytes_irrefl] at this
      exact Bool.false_ne_true this
    have h2 : k ≠ k2 := by
      intro hkk
      subst hkk
      rw [ltBytes_irrefl] at hk2
      exact Bool.false_ne_true hk2
    simp only [btreeInsert, h1, if_false, if_neg h2, Bool.false_eq_true]
    rw [ih (fun p hp => h p (by simp [hp]))]
    simp

theorem sorted_keys_append_mid {ps2 : List (List Nat × Value)} {k : List Nat} {v : Value} :
    ∀ (acc : List (List Nat × Value)),
      sorted_keys (acc ++ (k, v) :: ps2) = true → ∀ p ∈ acc, ltBytes p.1 k = true := by
  intro acc
  induction acc with
  | nil => intro _ p hp; simp at hp
  | cons q acc2 ih =>
    obtain ⟨k2, v2⟩ := q
    intro h p hp
    rcases List.mem_cons.mp hp with rfl | hp2
    · have := sorted_keys_lt_all (h := h) ((k, v)) (by simp)
      exact this
    · exact ih (sorted_keys_tail h) p hp2

theorem btree_of_list_sorted_id :
    ∀ (ps : List (List Nat × Value)), sorted_keys ps = true → btree_of_list ps = ps := by
  have hgen : ∀ (ps acc : List (List Nat × Value)),
      sorted_keys (acc ++ ps) = true →
      ps.foldl (fun m p => btreeInsert p.1 p.2 m) acc = acc ++ ps := by
    intro ps
    induction ps with
    | nil => intro acc _; simp
    | cons q ps2 ih =>
      obtain ⟨k, v⟩ := q
      intro acc h
      have hstep : btreeInsert k v acc = acc ++ [(k, v)] :=
        btreeInsert_append k v acc (sorted_keys_append_mid acc h)
      simp only [List.foldl_cons, hstep]
      have h2 : sorted_keys ((acc ++ [(k, v)]) ++ ps2) = true := by
        simpa [List.append_assoc] using h
      rw [ih (acc ++ [(k, v)]) h2]
      simp
  intro ps h
  exact hgen ps [] h

theorem restOk_value_append (v : Value) (x : List Nat) : restOk (encode_value v ++ x) := by
  unfold restOk
  rw [headD_append_of_ne_nil (encode_value_ne_nil v)]
  exact encode_value_headD_lt v

theorem encode_value_length_pos (v : Value) : 1 ≤ (encode_value v).length := by
  have := encode_value_ne_nil v
  cases h : encode_value v with
  | nil => exact absurd h this
  | cons x xs => simp

theorem pbind_ok {α β : Type} (rest : List Nat) (a : α) (g : List Nat → α → PResult β) :
    pbind (.ok rest a) g = g rest a := rfl

theorem pbind_err {α β : Type} (g : List Nat → α → PResult β) :
    pbind (.err : PResult α) g = .err := rfl

theorem palt_err {α : Type} (g : Unit → PResult α) : palt (.err : PResult α) g = g () := rfl

theorem palt_ok {α : Type} (rest : List Nat) (a : α) (g : Unit → PResult α) :
    palt (.ok rest a) g = .ok rest a := rfl

theorem tagB_self (t : Nat) (rest : List Nat) : tagB t (t :: rest) = .ok rest () := by
  simp [tagB]

theorem parse_value_enc_sound :
    ∀ f : Nat,
      (∀ v t, wf_value v = true → restOk t → (encode_value v).length < f →
        parse_value f (encode_value v ++ t) = .ok t v)
      ∧ (∀ vs t m, wf_values vs = true → (encode_values vs).length < f → vs.length < m →
        many0 (parse_value f) m (encode_values vs ++ 101 :: t) = .ok (101 :: t) vs)
      ∧ (∀ ps t m, wf_pairs ps = true → (encode_pairs ps).length < f → ps.length < m →
        many0 (pairP (parse_value f)) m (encode_pairs ps ++ 101 :: t) = .ok (101 :: t) ps) := by
  intro f
  induction f using Nat.strong_induction_on with
  | _ f ih =>
    have hA : ∀ v t, wf_value v = true → restOk t → (encode_value v).length < f →
        parse_value f (encode_value v ++ t) = .ok t v := by
      intro v t hwf ht hlen
      have hpos := encode_value_length_pos v
      obtain ⟨f0, rfl⟩ : ∃ f0, f = f0 + 1 := ⟨f - 1, by omega⟩
      cases v with
      | String s =>
        have hs : s.length < 4294967296 := by simpa [wf_value] using hwf
        have h1 : parse_string (encode_value (Value.String s) ++ t) = .ok t s := by
          simpa [encode_value] using parse_string_enc s t hs ht
        simp only [parse_value, h1, pbind_ok, palt_ok]
      | Int i =>
        have hr : -2147483648 ≤ i ∧ i ≤ 2147483647 := by
          simpa [wf_value] using hwf
        have hassoc : encode_value (Value.Int i) ++ t = 105 :: (intToBytes i ++ 101 :: t) := by
          simp [encode_value, encode_integer]
        have h1 : parse_string (encode_value (Value.Int i) ++ t) = .err := by
          rw [hassoc]; exact parse_string_err _ rfl
        have h2 : parse_integer (encode_value (Value.Int i) ++ t) = .ok t (Value.Int i) := by
          simpa [encode_value] using parse_integer_enc i t hr.1 hr.2
        simp only [parse_value, h1, h2, pbind_err, palt_err, palt_ok]
      | List vs =>
        have hwfl : wf_values vs = true := by simpa [wf_value] using hwf
        have hassoc : encode_value (Value.List vs) ++ t
            = 108 :: (encode_values vs ++ 101 :: t) := by
          simp [encode_value]
        have hlen2 : (encode_value (Value.List vs)).length
            = (encode_values vs).length + 2 := by
          simp [encode_value]
        have h1 : parse_string (108 :: (encode_values vs ++ 101 :: t)) = .err :=
          parse_string_err _ rfl
        have h2 : parse_integer (108 :: (encode_values vs ++ 101 :: t)) = .err :=
          parse_integer_err _ (by omega)
        have hmany := (ih f0 (by omega)).2.1 vs (t := t)
          (m := (encode_values vs ++ 101 :: t).length + 1) hwfl
          (by omega)
          (by
            have := encode_values_length_ge vs
            simp only [List.length_append]
            omega)
        rw [hassoc]
        simp only [parse_value, h1, h2, pbind_err, palt_err, tagB_self, pbind_ok,
          hmany, palt_ok]
      | Dict ps =>
        have hboth : sorted_keys ps = true ∧ wf_pairs ps = true := by
          simpa [wf_value, Bool.and_eq_true] using hwf
        have hassoc : encode_value (Value.Dict ps) ++ t
            = 100 :: (encode_pairs ps ++ 101 :: t) := by
          simp [encode_value]
        have hlen2 : (encode_value (Value.Dict ps)).length
            = (encode_pairs ps).length + 2 := by
          simp [encode_value]
        have h1 : parse_string (100 :: (encode_pairs ps ++ 101 :: t)) = .err :=
          parse_string_err _ rfl
        have h2 : parse_integer (100 :: (encode_pairs ps ++ 101 :: t)) = .err :=
          parse_integer_err _ (by omega)
        have h3 : tagB 108 (100 :: (encode_pairs ps ++ 101 :: t)) = .err := by
          simp [tagB]
        have hmany := (ih f0 (by omega)).2.2 ps (t := t)
          (m := (encode_pairs ps ++ 101 :: t).length + 1) hboth.2
          (by omega)
          (by
            have := encode_pairs_length_ge ps
            simp only [List.length_append]
            omega)
        rw [hassoc]
        simp only [parse_value, h1, h2, h3, pbind_err, palt_err, tagB_self, pbind_ok,
          hmany, palt_ok, btree_of_list_sorted_id ps hboth.1]
    have hB : ∀ vs t m, wf_values vs = true → (encode_values vs).length < f → vs.length < m →
        many0 (parse_value f) m (encode_values vs ++ 101 :: t) = .ok (101 :: t) vs := by
      intro vs
      induction vs with
      | nil =>
        intro t m hwf hf hm
        obtain ⟨m0, rfl⟩ : ∃ m0, m = m0 + 1 := ⟨m - 1, by omega⟩
        have herr : parse_value f (101 :: t) = .err := by
          rw [parse_value_zero_lt f _ (by omega)]
          exact parse_value_err _ _ rfl (by omega) (by omega) (by omega)
        simp [encode_values, many0, herr]
      | cons v vs2 ihv =>
        intro t m hwf hf hm
        obtain ⟨m0, rfl⟩ : ∃ m0, m = m0 + 1 := ⟨m - 1, by omega⟩
        have hw : wf_value v = true ∧ wf_values vs2 = true := by
          simpa [wf_values, Bool.and_eq_true] using hwf
        have hassoc : encode_values (v :: vs2) ++ 101 :: t
            = encode_value v ++ (encode_values vs2 ++ 101 :: t) := by
          simp [encode_values]
        have hlenv : (encode_values (v :: vs2)).length
            = (encode_value v).length + (encode_values vs2).length := by
          simp [encode_values]
        have hp : parse_value f (encode_value v ++ (encode_values vs2 ++ 101 :: t))
            = .ok (encode_values vs2 ++ 101 :: t) v :=
          hA v _ hw.1 (restOk_values vs2 t) (by omega)
        have hpos := encode_value_length_pos v
        have hcons : (encode_values vs2 ++ 101 :: t).length
            < (encode_value v ++ (encode_values vs2 ++ 101 :: t)).length := by
          simp only [List.length_append]
          omega
        have hrec : many0 (parse_value f) m0 (encode_values vs2 ++ 101 :: t)
            = .ok (101 :: t) vs2 :=
          ihv t m0 hw.2 (by omega) (by simp only [List.length_cons] at hm; omega)
        rw [hassoc]
        simp only [many0, hp, if_pos hcons, hrec]
    have hC : ∀ ps t m, wf_pairs ps = true → (encode_pairs ps).length < f → ps.length < m →
        many0 (pairP (parse_value f)) m (encode_pairs ps ++ 101 :: t) = .ok (101 :: t) ps := by
      intro ps
      induction ps with
      | nil =>
        intro t m _ _ hm
        obtain ⟨m0, rfl⟩ : ∃ m0, m = m0 + 1 := ⟨m - 1, by omega⟩
        have hps : parse_string (101 :: t) = PResult.err := parse_string_err (b := 101) t rfl
        have herr : pairP (parse_value f) (101 :: t) = .err := by
          simp [pairP, hps, pbind_err]
        simp [encode_pairs, many0, herr]
      | cons p ps2 ihp =>
        obtain ⟨k, v⟩ := p
        intro t m hwf hf hm
        obtain ⟨m0, rfl⟩ : ∃ m0, m = m0 + 1 := ⟨m - 1, by omega⟩
        have hw : k.length < 4294967296 ∧ wf_value v = true ∧ wf_pairs ps2 = true := by
          simpa [wf_pairs, Bool.and_eq_true, and_assoc] using hwf
        have hassoc : encode_pairs ((k, v) :: ps2) ++ 101 :: t
            = encode_string k ++ (encode_value v ++ (encode_pairs ps2 ++ 101 :: t)) := by
          simp [encode_pairs]
        have hlenp : (encode_pairs ((k, v) :: ps2)).length
            = (encode_string k).length + (encode_value v).length
              + (encode_pairs ps2).length := by
          simp only [encode_pairs, List.length_append, List.append_assoc]
          try omega
        have hstr : parse_string
              (encode_string k ++ (encode_value v ++ (encode_pairs ps2 ++ 101 :: t)))
            = .ok (encode_value v ++ (encode_pairs ps2 ++ 101 :: t)) k :=
          parse_string_enc k _ hw.1 (restOk_value_append v _)
        have hv2 : parse_value f (encode_value v ++ (encode_pairs ps2 ++ 101 :: t))
            = .ok (encode_pairs ps2 ++ 101 :: t) v :=
          hA v _ hw.2.1 (restOk_pairs ps2 t) (by omega)
        have hpair : pairP (parse_value f)
              (encode_string k ++ (encode_value v ++ (encode_pairs ps2 ++ 101 :: t)))
            = .ok (encode_pairs ps2 ++ 101 :: t) (k, v) := by
          simp only [pairP, hstr, pbind_ok, hv2]
        have hpos := encode_value_length_pos v
        have hcons : (encode_pairs ps2 ++ 101 :: t).length
            < (encode_string k ++ (encode_value v ++ (encode_pairs ps2 ++ 101 :: t))).length := by
          simp only [List.length_append]
          omega
        have hrec : many0 (pairP (parse_value f)) m0 (encode_pairs ps2 ++ 101 :: t)
            = .ok (101 :: t) ps2 :=
          ihp t m0 hw.2.2 (by omega) (by simp only [List.length_cons] at hm; omega)
        rw [hassoc]
        simp only [many0, hpair, if_pos hcons, hrec]
    exact ⟨hA, hB, hC⟩
theorem parse_encode_of_wf (v : Value) (h : wf_value v = true) :
    parse (encode v) = .ok v := by
  have hp : parse_value ((encode_value v).length + 1) (encode_value v ++ []) = .ok [] v :=
    (parse_value_enc_sound ((encode_value v).length + 1)).1 v [] h restOk_nil (by omega)
  rw [List.append_nil] at hp
  unfold parse encode
  rw [hp]
  rfl

theorem parse_value_step_dict (f : Nat) (rest : List Nat) :
    parse_value (f+1) (100 :: rest) =
      pbind (many0 (pairP (parse_value f)) (rest.length + 1) rest) fun i2 ps =>
        pbind (tagB 101 i2) fun i3 _ => .ok i3 (Value.Dict (btree_of_list ps)) := by
  have h1 : parse_string (100 :: rest) = .err := parse_string_err _ rfl
  have h2 : parse_integer (100 :: rest) = .err := parse_integer_err _ (by omega)
  have h3 : tagB 108 (100 :: rest) = .err := by simp [tagB]
  conv_lhs => rw [parse_value]
  simp only [h1, h2, h3, pbind_err, palt_err, tagB_self, pbind_ok]

theorem parse_dict_of_pairs (ps : List (List Nat × Value)) (h : wf_pairs ps = true) :
    parse (100 :: (encode_pairs ps ++ [101])) = .ok (Value.Dict (btree_of_list ps)) := by
  have hC := (parse_value_enc_sound ((encode_pairs ps ++ [101]).length + 1)).2.2 ps
    (t := []) (m := (encode_pairs ps ++ [101]).length + 1) h
    (by simp only [List.length_append]; omega)
    (by
      have := encode_pairs_length_ge ps
      simp only [List.length_append]
      omega)
  unfold parse
  simp only [List.length_cons, parse_value_step_dict, hC, pbind_ok, tagB_self]
  rfl

theorem parse_padded_string (z : Nat) (s : List Nat) (h : s.length < 4294967296) :
    parse (List.replicate z 48 ++ encode_string s) = .ok (Value.String s) := by
  have hassoc : List.replicate z 48 ++ encode_string s
      = (List.replicate z 48 ++ natToDigits s.length) ++ 58 :: s := by
    simp [encode_string]
  have hne : List.replicate z 48 ++ natToDigits s.length ≠ [] := by
    intro hc
    exact natToDigits_ne_nil s.length (List.append_eq_nil.mp hc).2
  have hall : ∀ b ∈ List.replicate z 48 ++ natToDigits s.length, is_numeric b = true := by
    intro b hb
    rcases List.mem_append.mp hb with hb | hb
    · rw [List.eq_of_mem_replicate hb]; rfl
    · have := natToDigits_all_digits s.length b hb
      simp [is_numeric]; omega
  have hval : digitsToNat (List.replicate z 48 ++ natToDigits s.length) = s.length := by
    rw [digitsToNat_replicate_zero_append, digitsToNat_natToDigits]
  have hps : parse_string (List.replicate z 48 ++ encode_string s) = .ok [] s := by
    rw [hassoc, parse_string, parse_numeric_spec _ s hne hall, hval, if_pos h]
    simp only [pbind_ok, tagB_self]
    have hbound : isCharBoundary s s.length = true := by
      simpa using isCharBoundary_append s [] restOk_nil
    simp [pbind_ok, hbound, List.take_length, List.drop_length]
  unfold parse
  obtain ⟨f0, hf⟩ : ∃ f0, (List.replicate z 48 ++ encode_string s).length + 1 = f0 + 1 :=
    ⟨_, rfl⟩
  rw [hf]
  simp only [parse_value, hps, pbind_ok, palt_ok]
  rfl

theorem encode_dict_shape (m : List (List Nat × Value)) :
    encode (Value.Dict m) = 100 :: encode_pairs m ++ [101] := rfl
/-! ## Peer compaction lemmas -/

/-- The IPv4 peers of a list, in order, as (octets, port). -/
def v4_peers (peers : List Peer) : List ((Nat × Nat × Nat × Nat) × Nat) :=
  peers.filterMap fun p => match p.ip with
    | .v4 a b c d => some ((a, b, c, d), p.port)
    | .v6 _ => none

/-- The IPv6 peers of a list, in order, as (address, port). -/
def v6_peers (peers : List Peer) : List (Nat × Nat) :=
  peers.filterMap fun p => match p.ip with
    | .v4 _ _ _ _ => none
    | .v6 n => some (n, p.port)

/-- One packed IPv4 record: 4 address bytes then 2 port bytes. -/
def v4_record (a b c d port : Nat) : List Nat :=
  put_u32 (ipv4_to_u32 a b c d) ++ put_u16 port

/-- One packed IPv6 record: 16 address bytes then 2 port bytes. -/
def v6_record (n port : Nat) : List Nat := put_u128 n ++ put_u16 port

theorem compact_blobs_eq (peers : List Peer) :
    compact_blobs peers =
      (((v4_peers peers).map fun q => v4_record q.1.1 q.1.2.1 q.1.2.2.1 q.1.2.2.2 q.2).flatten,
       ((v6_peers peers).map fun q => v6_record q.1 q.2).flatten) := by
  have hgen : ∀ (ps : List Peer) (acc : List Nat × List Nat),
      ps.foldl announce_fold acc =
        (acc.1 ++ ((v4_peers ps).map fun q => v4_record q.1.1 q.1.2.1 q.1.2.2.1 q.1.2.2.2 q.2).flatten,
         acc.2 ++ ((v6_peers ps).map fun q => v6_record q.1 q.2).flatten) := by
    intro ps
    induction ps with
    | nil => intro acc; simp [v4_peers, v6_peers]
    | cons p ps2 ih =>
      intro acc
      cases hip : p.ip with
      | v4 a b c d =>
        have h4 : v4_peers (p :: ps2) = ((a, b, c, d), p.port) :: v4_peers ps2 := by
          simp [v4_peers, List.filterMap_cons, hip]
        have h6 : v6_peers (p :: ps2) = v6_peers ps2 := by
          simp [v6_peers, List.filterMap_cons, hip]
        simp only [List.foldl_cons, announce_fold, hip, ih, h4, h6, List.map_cons,
          List.flatten_cons, v4_record]
        simp [List.append_assoc]
      | v6 n =>
        have h4 : v4_peers (p :: ps2) = v4_peers ps2 := by
          simp [v4_peers, List.filterMap_cons, hip]
        have h6 : v6_peers (p :: ps2) = (n, p.port) :: v6_peers ps2 := by
          simp [v6_peers, List.filterMap_cons, hip]
        simp only [List.foldl_cons, announce_fold, hip, ih, h4, h6, List.map_cons,
          List.flatten_cons, v6_record]
        simp [List.append_assoc]
  simpa [compact_blobs] using hgen peers ([], [])

theorem put_u16_length (n : Nat) : (put_u16 n).length = 2 := rfl

theorem put_u32_length (n : Nat) : (put_u32 n).length = 4 := rfl

theorem put_u128_length (n : Nat) : (put_u128 n).length = 16 := by
  simp [put_u128]

theorem v4_record_length (a b c d port : Nat) : (v4_record a b c d port).length = 6 := rfl

theorem v6_record_length (n port : Nat) : (v6_record n port).length = 18 := by
  simp [v6_record, put_u128_length, put_u16_length]

theorem flatten_const_length {α : Type} (f : α → List Nat) (c : Nat)
    (h : ∀ x, (f x).length = c) :
    ∀ l : List α, ((l.map f).flatten).length = c * l.length := by
  intro l
  induction l with
  | nil => simp
  | cons x xs ih =>
    simp only [List.map_cons, List.flatten_cons, List.length_append, ih, h x,
      List.length_cons]
    ring

theorem v4_record_bytes (a b c d port : Nat)
    (ha : a < 256) (hb : b < 256) (hc : c < 256) (hd : d < 256) (hp : port < 65536) :
    v4_record a b c d port = [a, b, c, d, port / 256, port % 256] := by
  simp only [v4_record, put_u32, put_u16, ipv4_to_u32, List.cons_append, List.nil_append,
    List.cons.injEq, and_true]
  omega
theorem pbind_panic {α β : Type} (g : List Nat → α → PResult β) :
    pbind (.panic : PResult α) g = .panic := rfl

theorem palt_panic {α : Type} (g : Unit → PResult α) :
    palt (.panic : PResult α) g = .panic := rfl

theorem parse_of_parse_string_panic (input : List Nat)
    (h : parse_string input = .panic) : parse input = .panic := by
  unfold parse
  conv_lhs => rw [parse_value]
  simp only [h, pbind_panic, palt_panic]

/-! ## Claim theorems -/

/-- C1 (amended round-trip law): for every Value that the Rust program
can construct (dict keys strictly ascending, integers in the i32 range)
whose strings and dict keys are each shorter than 2^32 bytes, parsing
the encoder's output returns exactly that Value. -/
theorem parse_encode_roundtrip (v : Value) (h : wf_value v = true) :
    parse (encode v) = .ok v := parse_encode_of_wf v h

/-- C1 (witness): the round-trip theorem applied to the concrete value
`{"a": [-3, "xy"], "b": 0}`. -/
theorem parse_encode_roundtrip_witness :
    wf_value (Value.Dict [(istr "a", Value.List [Value.Int (-3), Value.String (istr "xy")]),
      (istr "b", Value.Int 0)]) = true
    ∧ parse (encode (Value.Dict [(istr "a", Value.List [Value.Int (-3), Value.String (istr "xy")]),
      (istr "b", Value.Int 0)]))
      = .ok (Value.Dict [(istr "a", Value.List [Value.Int (-3), Value.String (istr "xy")]),
      (istr "b", Value.Int 0)]) :=
  ⟨by decide, parse_encode_roundtrip _ (by decide)⟩

/-- C1 (counterexample): the round-trip law fails as literally claimed.
The Value `String (2^32 bytes of "a")` is constructible without
violating the Dict key invariant, yet parsing its encoding panics on
the length prefix's `parse::<u32>().unwrap()` instead of returning the
Value, so `parse(encode(v)) == v` does not hold for it. -/
theorem parse_encode_roundtrip_huge_string :
    parse (encode (Value.String (List.replicate 4294967296 97))) = .panic := by
  apply parse_of_parse_string_panic
  have hlen : (List.replicate 4294967296 97).length = 4294967296 :=
    List.length_replicate 4294967296 97
  have hassoc : encode (Value.String (List.replicate 4294967296 97))
      = natToDigits 4294967296 ++ 58 :: List.replicate 4294967296 97 := by
    simp only [encode, encode_value, encode_string, hlen, List.append_assoc,
      List.cons_append, List.nil_append]
  rw [hassoc, parse_string,
    parse_numeric_spec _ _ (natToDigits_ne_nil _)
      (fun b hb => by
        have := natToDigits_all_digits 4294967296 b hb
        simp [is_numeric]; omega)]
  rw [digitsToNat_natToDigits, if_neg (by omega)]
  rfl

/-- C2: the parser does not return a tagged error on inputs whose
declared string length or integer magnitude exceeds the 32-bit range,
or whose declared length falls inside a multi-byte character: the
`unwrap`s in parse_numeric / parse_integer_numeric_part and the
`split_at` in parse_string panic there. -/
theorem parse_panics_not_tagged_errors :
    parse (istr "i9999999999e") = .panic
    ∧ parse (istr "99999999999:a") = .panic
    ∧ parse (istr "1:" ++ [195, 169]) = .panic :=
  ⟨rfl, rfl, rfl⟩

/-- C3 (counterexample): a dict input whose keys are out of order
("spam" before "cow") does not fail with UnsortedDictKey: parse
accepts it and silently returns the sorted dict. -/
theorem parse_accepts_unsorted_dict :
    parse (istr "d4:spam4:eggs3:cow3:mooe")
      = .ok (Value.Dict [(istr "cow", Value.String (istr "moo")),
          (istr "spam", Value.String (istr "eggs"))]) := rfl

/-- C3 (amended): for every dict input (well-formed values, keys of any
order), parse succeeds and silently collects the pairs into the sorted
`BTreeMap` order, de-duplicating with last occurrence winning; there is
no UnsortedDictKey check. -/
theorem parse_dict_sorts_and_dedups (ps : List (List Nat × Value))
    (h : wf_pairs ps = true) :
    parse (100 :: (encode_pairs ps ++ [101])) = .ok (Value.Dict (btree_of_list ps))
    ∧ sorted_keys (btree_of_list ps) = true :=
  ⟨parse_dict_of_pairs ps h, btree_of_list_sorted ps⟩

/-- C3 (witness): the amended theorem applied to the out-of-order,
duplicated pair list b=1, a=2, b=3, whose parse yields a=2, b=3. -/
theorem parse_dict_sorts_and_dedups_witness :
    wf_pairs [(istr "b", Value.Int 1), (istr "a", Value.Int 2), (istr "b", Value.Int 3)] = true
    ∧ (parse (100 :: (encode_pairs [(istr "b", Value.Int 1), (istr "a", Value.Int 2),
        (istr "b", Value.Int 3)] ++ [101]))
      = .ok (Value.Dict (btree_of_list [(istr "b", Value.Int 1), (istr "a", Value.Int 2),
        (istr "b", Value.Int 3)]))
      ∧ sorted_keys (btree_of_list [(istr "b", Value.Int 1), (istr "a", Value.Int 2),
        (istr "b", Value.Int 3)]) = true) :=
  ⟨by decide, parse_dict_sorts_and_dedups _ (by decide)⟩

/-- C4: for every store-supplied statistics record, scrape builds the
response `{"files": {...}}` whose inner mapping is keyed by the
record's `peer_id` field (the record has no info-hash field), with the
statistics dict keys `complete`, `downloaded`, `incomplete`. -/
theorem scrape_keys_files_by_peer_id (d : InfoHashData) :
    scrape [d] = encode (Value.Dict [(istr "files",
      Value.Dict [(d.peer_id,
        Value.Dict [(istr "complete", Value.Int d.complete),
                    (istr "downloaded", Value.Int d.downloaded),
                    (istr "incomplete", Value.Int d.incomplete)])])]) := rfl

/-- C5 (counterexample): in long form (compact=0) the announce response
tree has exactly the keys `interval` and `peers`: there is no `peers6`
key, so the claimed key set {interval, peers, peers6} is wrong for the
long form. -/
theorem announce_long_form_lacks_peers6 :
    announce (some 0) [] = .ok (encode (Value.Dict (announce_long_data [])))
    ∧ (announce_long_data []).map Prod.fst = [istr "interval", istr "peers"]
    ∧ [istr "interval", istr "peers"] ≠ [istr "interval", istr "peers", istr "peers6"] := by
  refine ⟨rfl, rfl, ?_⟩
  intro h
  have h2 := congrArg List.length h
  simp at h2

/-- C5 (amended): the compact-form response tree has exactly the keys
`interval`, `peers`, `peers6` in sorted order (whenever the packed
blobs survive the UTF-8 reinterpretation), while the long-form response
tree has exactly the keys `interval` and `peers` in sorted order. -/
theorem announce_response_keys (peers : List Peer) (c : Option Nat)
    (hc : c.getD 1 = 1)
    (hv : (validUtf8 (compact_blobs peers).1 && validUtf8 (compact_blobs peers).2) = true) :
    announce c peers
      = .ok (encode (Value.Dict (announce_compact_data (compact_blobs peers).1
          (compact_blobs peers).2)))
    ∧ (announce_compact_data (compact_blobs peers).1 (compact_blobs peers).2).map Prod.fst
      = [istr "interval", istr "peers", istr "peers6"]
    ∧ sorted_keys (announce_compact_data (compact_blobs peers).1 (compact_blobs peers).2)
      = true
    ∧ announce (some 0) peers = .ok (encode (Value.Dict (announce_long_data peers)))
    ∧ (announce_long_data peers).map Prod.fst = [istr "interval", istr "peers"]
    ∧ sorted_keys (announce_long_data peers) = true := by
  refine ⟨?_, rfl, rfl, rfl, rfl, rfl⟩
  simp [announce, hc, hv]

/-- C5 (witness): the amended theorem applied to the empty peer list in
compact form. -/
theorem announce_response_keys_witness :
    ((some 1 : Option Nat).getD 1 = 1
      ∧ (validUtf8 (compact_blobs []).1 && validUtf8 (compact_blobs []).2) = true)
    ∧ announce (some 1) []
      = .ok (encode (Value.Dict (announce_compact_data (compact_blobs []).1
          (compact_blobs []).2))) :=
  ⟨⟨rfl, by decide⟩, (announce_response_keys [] (some 1) rfl (by decide)).1⟩

/-- C6: canonical-integer handling: `i03e` and `i-0e` fail with a parse
error, while `i0e` parses to Int 0 and `i3e` parses to Int 3. -/
theorem parse_canonical_integers :
    parse (istr "i03e") = .error
    ∧ parse (istr "i-0e") = .error
    ∧ parse (istr "i0e") = .ok (Value.Int 0)
    ∧ parse (istr "i3e") = .ok (Value.Int 3) :=
  ⟨rfl, rfl, rfl, rfl⟩

/-- C7 (counterexample): a decimal length prefix with a leading zero is
not a parse failure: `04:spam` parses to the string "spam". -/
theorem parse_accepts_leading_zero_length :
    parse (istr "04:spam") = .ok (Value.String (istr "spam")) := rfl

/-- C7 (amended): a length prefix padded with any number of leading
zeros is accepted and read by numeric value: parsing
`0...0<len>:<bytes>` yields the same string as the canonical form. -/
theorem parse_padded_length_prefix (z : Nat) (s : List Nat)
    (h : s.length < 4294967296) :
    parse (List.replicate z 48 ++ encode_string s) = .ok (Value.String s) :=
  parse_padded_string z s h

/-- C7 (witness): the amended theorem at z=1, s="spam", i.e. exactly the
input "04:spam". -/
theorem parse_padded_length_prefix_witness :
    (istr "spam").length < 4294967296
    ∧ parse (List.replicate 1 48 ++ encode_string (istr "spam"))
      = .ok (Value.String (istr "spam")) :=
  ⟨by decide, parse_padded_length_prefix 1 (istr "spam") (by decide)⟩

/-- C8: the compact peer blobs are the in-order concatenations of
6-byte IPv4 records (4 address bytes in network order, then the
big-endian port) and 18-byte IPv6 records (16 address bytes, then the
big-endian port), so their lengths are 6*N and 18*N. -/
theorem compact_blob_layout (peers : List Peer) :
    (compact_blobs peers).1
      = ((v4_peers peers).map fun q => v4_record q.1.1 q.1.2.1 q.1.2.2.1 q.1.2.2.2 q.2).flatten
    ∧ (compact_blobs peers).1.length = 6 * (v4_peers peers).length
    ∧ (compact_blobs peers).2
      = ((v6_peers peers).map fun q => v6_record q.1 q.2).flatten
    ∧ (compact_blobs peers).2.length = 18 * (v6_peers peers).length
    ∧ (∀ a b c d port, a < 256 → b < 256 → c < 256 → d < 256 → port < 65536 →
        v4_record a b c d port = [a, b, c, d, port / 256, port % 256])
    ∧ (∀ n port, (v6_record n port).length = 18) := by
  rw [compact_blobs_eq]
  refine ⟨rfl, ?_, rfl, ?_, v4_record_bytes, fun n port => v6_record_length n port⟩
  · exact flatten_const_length _ 6 (fun q => v4_record_length _ _ _ _ _) _
  · exact flatten_const_length _ 18 (fun q => v6_record_length _ _) _

/-- C8 (witness): the layout theorem applied to the single peer
192.0.2.1:6881, whose packed record is [192, 0, 2, 1, 26, 225]. -/
theorem compact_blob_layout_witness :
    (192 < 256 ∧ 6881 < 65536)
    ∧ v4_record 192 0 2 1 6881 = [192, 0, 2, 1, 26, 225]
    ∧ (compact_blobs [⟨istr "p", .v4 192 0 2 1, 6881⟩]).1.length
      = 6 * (v4_peers [⟨istr "p", .v4 192 0 2 1, 6881⟩]).length :=
  ⟨by decide,
   (by simpa using ((compact_blob_layout []).2.2.2.2.1 192 0 2 1 6881
     (by decide) (by decide) (by decide) (by decide) (by decide))),
   (compact_blob_layout [⟨istr "p", .v4 192 0 2 1, 6881⟩]).2.1⟩

/-- C9: the dict built by any insertion sequence has strictly ascending
keys (so encoding is independent of construction order), and the
encoder emits exactly those entries, in that order, between `d` and
`e`; the encoder itself is a total function. -/
theorem encode_dict_sorted_keys (ps : List (List Nat × Value)) :
    sorted_keys (btree_of_list ps) = true
    ∧ encode (Value.Dict (btree_of_list ps))
      = 100 :: encode_pairs (btree_of_list ps) ++ [101] :=
  ⟨btree_of_list_sorted ps, rfl⟩

/-- C10: the compact announce path reinterprets the packed blobs as
UTF-8 strings via `from_utf8(..).unwrap()`: whenever either blob is not
valid UTF-8 the handler panics instead of producing a response, and in
particular a single IPv4 peer whose packed 6-byte record is not valid
UTF-8 makes the handler panic. -/
theorem announce_compact_panics_on_invalid_utf8 :
    (∀ (peers : List Peer) (c : Option Nat), c.getD 1 = 1 →
      (validUtf8 (compact_blobs peers).1 && validUtf8 (compact_blobs peers).2) = false →
      announce c peers = .panic)
    ∧ (∀ (p : Peer) (a b c d : Nat), p.ip = .v4 a b c d →
      validUtf8 (v4_record a b c d p.port) = false →
      announce (some 1) [p] = .panic) := by
  constructor
  · intro peers c hc hv
    simp [announce, hc, hv]
  · intro p a b c d hip hv
    have hblob : compact_blobs [p] = (v4_record a b c d p.port, []) := by
      simp [compact_blobs, announce_fold, hip, v4_record]
    simp [announce, hblob, hv]

/-- C10 (witness): the panic theorem applied to the peer 192.0.2.1:6881,
whose record starts with the invalid UTF-8 byte 0xC0. -/
theorem announce_compact_panics_witness :
    ((⟨istr "p", .v4 192 0 2 1, 6881⟩ : Peer).ip = IpAddr.v4 192 0 2 1
      ∧ validUtf8 (v4_record 192 0 2 1 6881) = false)
    ∧ announce (some 1) [⟨istr "p", .v4 192 0 2 1, 6881⟩] = .panic :=
  ⟨⟨rfl, by decide⟩,
   announce_compact_panics_on_invalid_utf8.2 ⟨istr "p", .v4 192 0 2 1, 6881⟩
     192 0 2 1 rfl (by decide)⟩

end Hanekawa
